import Mathlib

/-!
Verification of the docsscraper site-audit engine (src/validator.py).

Strings are modelled as `List Char`.  Pure helpers of the Python source
(`normalize_url`, `is_valid`, `extract_api_routes`, the coverage
comparison) are translated directly; the crawl loop (`crawl_all` /
`crawl_page`) is embedded as a state-transition function parameterised by
an environment `env : List Char → FetchResult` standing for the HTTP
fetch plus HTML parse (the spec's external collaborators), and by a
`urljoin` resolver (the urllib primitive).  The crawl loop runs on fuel,
since the Python while-loop need not terminate on an unbounded site.
-/

namespace Scraper

/-- Models Python's ASCII lower-casing of one character (`str.lower`),
which is also how `re.IGNORECASE` compares ASCII letters. -/
def lowChar (c : Char) : Char :=
  if 65 ≤ c.toNat ∧ c.toNat ≤ 90 then Char.ofNat (c.toNat + 32) else c

/-- Models Python's ASCII upper-casing of one character (`str.upper`). -/
def upChar (c : Char) : Char :=
  if 97 ≤ c.toNat ∧ c.toNat ≤ 122 then Char.ofNat (c.toNat - 32) else c

/-- The suffix removed by `normalize_url` when present. -/
def INDEX_SUFFIX : List Char := "/index.html".toList

/-- Models `urllib.parse.urldefrag`: truncate at the first `#`.
(The library call also canonicalizes the scheme's case when a fragment is
present; the URLs this tool handles use lower-case schemes already.) -/
def dropFragment (u : List Char) : List Char := u.takeWhile (· != '#')

/-- `if url.endswith("/index.html"): url = url[:-10]` — note the Python
source slices off only 10 characters of the 11-character suffix, leaving
the trailing slash for `rstrip` to remove. -/
def stripIndexHtml (u : List Char) : List Char :=
  if INDEX_SUFFIX.isSuffixOf u then u.take (u.length - 10) else u

/-- `url.rstrip("/")`: remove every trailing `/`. -/
def rstripSlash (u : List Char) : List Char := (u.reverse.dropWhile (· == '/')).reverse

/-- `SiteAuditor.normalize_url` from src/validator.py. -/
def normalize_url (u : List Char) : List Char :=
  rstripSlash (stripIndexHtml (dropFragment u))

/- ### Route extractor (SiteAuditor.extract_api_routes) -/

/-- Python regex class for whitespace, restricted to ASCII. -/
def isSpaceChar (c : Char) : Bool :=
  c == ' ' || c == '\t' || c == '\n' || c == '\r' || c == '\x0b' || c == '\x0c'

/-- Python regex class for word characters, restricted to ASCII. -/
def isWordChar (c : Char) : Bool := c.isAlphanum || c == '_'

/-- The path character class of the route regex. -/
def isPathChar (c : Char) : Bool :=
  isWordChar c || c == '/' || c == '\x7b' || c == '\x7d' || c == '(' || c == ')' ||
    c == '.' || c == '~' || c == '-'

/-- The five HTTP method alternatives of the route regex, in alternation order. -/
def methodList : List (List Char) :=
  ["GET".toList, "POST".toList, "PUT".toList, "PATCH".toList, "DELETE".toList]

/-- The fixed API path literal of the route regex. -/
def apiPathLit : List Char := "/d2l/api/".toList

/-- Case-insensitive literal match at the head of the input, returning the
matched characters as they appear in the input, and the remaining input. -/
def matchLitCI : List Char → List Char → Option (List Char × List Char)
  | [], s => some ([], s)
  | _ :: _, [] => none
  | p :: ps, c :: cs =>
    if lowChar p = lowChar c then
      match matchLitCI ps cs with
      | some (m, r) => some (c :: m, r)
      | none => none
    else none

/-- First alternative (in order) that matches at the head of the input. -/
def firstAlt : List (List Char) → List Char → Option (List Char × List Char)
  | [], _ => none
  | p :: ps, s =>
    match matchLitCI p s with
    | some mr => some mr
    | none => firstAlt ps s

/-- One attempt of the route regex at the current position:
method alternation, one-or-more whitespace, the literal API path and a
non-empty greedy run of path characters.  Returns the two capture groups
and the rest of the input after the match. -/
def matchRouteAt (s : List Char) : Option ((List Char × List Char) × List Char) :=
  match firstAlt methodList s with
  | none => none
  | some (m, r1) =>
    if (r1.takeWhile isSpaceChar).isEmpty then none
    else
      match matchLitCI apiPathLit (r1.dropWhile isSpaceChar) with
      | none => none
      | some (pfx, r3) =>
        if (r3.takeWhile isPathChar).isEmpty then none
        else some ((m, pfx ++ r3.takeWhile isPathChar), r3.dropWhile isPathChar)

/-- Left-to-right, non-overlapping scan of `re.findall`: on failure
advance one character, on success continue after the match.  The fuel is
the input length; a successful match always consumes at least one
character, so this fuel is enough. -/
def scanRoutes : Nat → List Char → List (List Char × List Char)
  | 0, _ => []
  | _ + 1, [] => []
  | fuel + 1, c :: rest =>
    match matchRouteAt (c :: rest) with
    | some (mp, restAfter) => mp :: scanRoutes fuel restAfter
    | none => scanRoutes fuel rest

/-- `SiteAuditor.extract_api_routes`: findall over the route regex, then
upper-case the method capture. -/
def extract_api_routes (content : List Char) : List (List Char × List Char) :=
  (scanRoutes content.length content).map fun mp => (mp.1.map upChar, mp.2)

/- ### Scope filter (SiteAuditor.is_valid), with a urlparse model -/

/-- Models urllib's urlparse just far enough for this tool: the input
after the first scheme separator, or none when the URL has no
authority part. -/
def afterSchemeSep : List Char → Option (List Char)
  | [] => none
  | ':' :: '/' :: '/' :: rest => some rest
  | _ :: rest => afterSchemeSep rest

/-- Models urlparse's hostname for absolute URLs: the authority with any
user info and port removed, lower-cased; none when absent or empty. -/
def hostnameOf (url : List Char) : Option (List Char) :=
  match afterSchemeSep url with
  | none => none
  | some rest =>
    let auth := rest.takeWhile fun c => !(c == '/' || c == '?' || c == '#')
    let afterAt := (auth.reverse.takeWhile (· != '@')).reverse
    let host := afterAt.takeWhile (· != ':')
    if host.isEmpty then none else some (host.map lowChar)

/-- Models urlparse's path for absolute URLs: everything from the first
slash after the authority up to the query or fragment. -/
def pathOfUrl (url : List Char) : List Char :=
  match afterSchemeSep url with
  | none => []
  | some rest =>
    (rest.dropWhile fun c => !(c == '/' || c == '?' || c == '#')).takeWhile
      fun c => !(c == '?' || c == '#')

/-- Python's substring test (`needle in haystack`). -/
def isSubstringOf (needle : List Char) : List Char → Bool
  | [] => needle.isEmpty
  | c :: rest => needle.isPrefixOf (c :: rest) || isSubstringOf needle rest

/-- The deny-list of non-content file extensions. -/
def SKIP_EXT : List (List Char) :=
  [".png".toList, ".jpg".toList, ".gif".toList, ".css".toList, ".js".toList,
   ".zip".toList, ".pdf".toList, ".txt".toList, ".svg".toList, ".ico".toList]

/-- The deny-list of non-content path fragments. -/
def SKIP_PATHS : List (List Char) :=
  ["/_static/".toList, "/_sources/".toList, "/genindex.html".toList, "/search.html".toList]

/-- `SiteAuditor.is_valid` from src/validator.py. -/
def is_valid (url : List Char) : Bool :=
  match hostnameOf url with
  | none => false
  | some h =>
    if h ≠ "docs.valence.desire2learn.com".toList then false
    else
      let p := pathOfUrl url
      if SKIP_EXT.any fun e => e.isSuffixOf (p.map lowChar) then false
      else if SKIP_PATHS.any fun s => isSubstringOf s p then false
      else true

/- ### Page processing helpers -/

/-- `content.split()`: whitespace-delimited words. -/
def splitWsAux : List Char → List Char → List (List Char)
  | [], acc => if acc.isEmpty then [] else [acc.reverse]
  | c :: rest, acc =>
    if isSpaceChar c then
      if acc.isEmpty then splitWsAux rest [] else acc.reverse :: splitWsAux rest []
    else splitWsAux rest (c :: acc)

def splitWs (s : List Char) : List (List Char) := splitWsAux s []

/-- `path.split("/")` including empty segments. -/
def splitSlashAux : List Char → List Char → List (List Char)
  | [], acc => [acc.reverse]
  | c :: rest, acc =>
    if c = '/' then acc.reverse :: splitSlashAux rest [] else splitSlashAux rest (c :: acc)

/-- Category derivation of `crawl_page`: first non-empty path segment,
"root" when there is none or when the segment names a page file. -/
def categoryOf (url : List Char) : List Char :=
  let parts := (splitSlashAux (pathOfUrl url) []).filter fun p => ¬p.isEmpty
  let c := match parts with
    | [] => "root".toList
    | p :: _ => p
  if ".html".toList.isSuffixOf c then "root".toList else c

/- ### Crawl model -/

/-- What the external fetch + parse collaborators report for one URL:
either a transport error (timeout or other exception), or a response with
its HTTP status, content-type header value, and — once parsed — the page
title, the text of the first matching main-content region (none when no
candidate region exists), and the href attributes of all anchors. -/
inductive FetchResult where
  | exn (err : List Char)
  | ok (status : Nat) (contentType : List Char) (title : Option (List Char))
      (main : Option (List Char)) (hrefs : List (List Char))

/-- One entry of `failed_urls`. -/
structure FailureRec where
  url : List Char
  info : List Char
  parent : Option (List Char)
deriving DecidableEq

/-- One entry of `skipped_urls`. -/
structure SkipRec where
  url : List Char
  reason : List Char
  info : Option (List Char)
deriving DecidableEq

/-- One `page_data` dictionary (the crawl timestamp, an external clock
read, is omitted). -/
structure PageData where
  url : List Char
  title : List Char
  contentLength : Nat
  wordCount : Nat
  category : List Char
  routesFound : Nat
  routes : List (List Char × List Char)
  parent : Option (List Char)
deriving DecidableEq

/-- The mutable fields of `SiteAuditor` together with the local queue of
`crawl_all`.  `categories` is the log of increments to the category
defaultdict: the dict's value at a key is the key's count in the log, and
the sum of all its values is the log's length.  The last three fields are
ghost instrumentation used only to state invariants: the number of pages
produced but discarded for low content, the routes counted on those
discarded pages, and the log of every URL ever appended to the queue. -/
structure CrawlState where
  visited : List (List Char)
  queue : List (List Char)
  pages : List PageData
  failed : List FailureRec
  skipped : List SkipRec
  urlMap : List (List Char × List (List Char))
  routeCount : Nat
  categories : List (List Char)
  discardedLowContent : Nat
  discardedRoutes : Nat
  enqueueLog : List (List Char)

/-- defaultdict lookup: the recorded list of linking pages, empty when
the key is absent. -/
def urlMapGet : List (List Char × List (List Char)) → List Char → List (List Char)
  | [], _ => []
  | (k, vs) :: rest, key => if k = key then vs else urlMapGet rest key

/-- `self.url_map[norm_url].append(url)` on a defaultdict. -/
def urlMapAppend : List (List Char × List (List Char)) → List Char → List Char →
    List (List Char × List (List Char))
  | [], key, v => [(key, [v])]
  | (k, vs) :: rest, key, v =>
    if k = key then (k, vs ++ [v]) :: rest else (k, vs) :: urlMapAppend rest key v

/-- Result of one `crawl_page` call. -/
structure PageResult where
  st : CrawlState
  page : Option PageData
  links : List (List Char)

/-- The link loop at the end of `crawl_page`: skip fragment-only and
mailto hrefs, resolve against the page URL, normalize, record provenance,
and collect candidates that are in scope and not yet visited. -/
def processLinks (uj : List Char → List Char → List Char) (url : List Char) :
    List (List Char) → CrawlState → CrawlState × List (List Char)
  | [], st => (st, [])
  | href :: rest, st =>
    if "#".toList.isPrefixOf href || "mailto:".toList.isPrefixOf href then
      processLinks uj url rest st
    else
      if is_valid (normalize_url (uj url href)) &&
          !(st.visited.contains (normalize_url (uj url href))) then
        ((processLinks uj url rest
            { st with urlMap := urlMapAppend st.urlMap (normalize_url (uj url href)) url }).1,
         normalize_url (uj url href) ::
           (processLinks uj url rest
             { st with urlMap := urlMapAppend st.urlMap (normalize_url (uj url href)) url }).2)
      else
        processLinks uj url rest
          { st with urlMap := urlMapAppend st.urlMap (normalize_url (uj url href)) url }

/-- The `page_data` dictionary built by `crawl_page` for a successfully
parsed page. -/
def mkPageData (url : List Char) (titl : Option (List Char)) (content : List Char)
    (parent : Option (List Char)) : PageData :=
  ⟨url, titl.getD "Untitled".toList, content.length, (splitWs content).length,
   categoryOf url, (extract_api_routes content).length, extract_api_routes content, parent⟩

/-- The accumulator side effects of a successful parse in `crawl_page`:
one category increment and the page's route count added to the total. -/
def pageStateUpdate (st : CrawlState) (url content : List Char) : CrawlState :=
  { st with categories := st.categories ++ [categoryOf url],
            routeCount := st.routeCount + (extract_api_routes content).length }

/-- `SiteAuditor.crawl_page`, over the abstract fetch/parse environment
`env` and the urljoin resolver `uj`. -/
def crawl_page (env : List Char → FetchResult) (uj : List Char → List Char → List Char)
    (st : CrawlState) (url : List Char) (parent : Option (List Char)) : PageResult :=
  match env url with
  | .exn e => ⟨{ st with failed := st.failed ++ [⟨url, e, parent⟩] }, none, []⟩
  | .ok status ctype titl main hrefs =>
    if status ≠ 200 then
      ⟨{ st with failed := st.failed ++ [⟨url, Nat.toDigits 10 status, parent⟩] }, none, []⟩
    else if ¬(isSubstringOf "text/html".toList ctype) then
      ⟨{ st with skipped := st.skipped ++ [⟨url, "Not HTML".toList, some ctype⟩] }, none, []⟩
    else
      match main with
      | none =>
        ⟨{ st with skipped := st.skipped ++
            [⟨url, "No main content found".toList, some (titl.getD "Untitled".toList)⟩] },
         none, []⟩
      | some content =>
        ⟨(processLinks uj url hrefs (pageStateUpdate st url content)).1,
         some (mkPageData url titl content parent),
         (processLinks uj url hrefs (pageStateUpdate st url content)).2⟩

/-- The commit decision of `crawl_all`: keep the page only when its
content length exceeds 100 characters; otherwise count it as discarded
(ghost fields only — the Python code simply drops it). -/
def commitPage (st : CrawlState) : Option PageData → CrawlState
  | none => st
  | some pd =>
    if pd.contentLength > 100 then { st with pages := st.pages ++ [pd] }
    else { st with discardedLowContent := st.discardedLowContent + 1,
                   discardedRoutes := st.discardedRoutes + pd.routesFound }

/-- The expansion loop of `crawl_all`: re-check visited membership, then
mark visited and enqueue together. -/
def expandLinks : List (List Char) → CrawlState → CrawlState
  | [], st => st
  | l :: rest, st =>
    if l ∈ st.visited then expandLinks rest st
    else
      expandLinks rest
        { st with visited := st.visited ++ [l], queue := st.queue ++ [l],
                  enqueueLog := st.enqueueLog ++ [l] }

/-- Parent lookup of `crawl_all`: first recorded discoverer, none for
URLs nothing has linked to (the seed). -/
def parentOf (st : CrawlState) (url : List Char) : Option (List Char) :=
  match urlMapGet st.urlMap url with
  | [] => none
  | p :: _ => some p

/-- One iteration of the while-loop body of `crawl_all`. -/
def crawlStep (env : List Char → FetchResult) (uj : List Char → List Char → List Char)
    (st : CrawlState) : CrawlState :=
  match st.queue with
  | [] => st
  | url :: rest =>
    expandLinks (crawl_page env uj { st with queue := rest } url (parentOf st url)).links
      (commitPage (crawl_page env uj { st with queue := rest } url (parentOf st url)).st
        (crawl_page env uj { st with queue := rest } url (parentOf st url)).page)

/-- `if max_pages and len(self.pages) >= max_pages` — a `None` or zero
ceiling means unlimited (Python truthiness). -/
def ceilingReached (maxPages : Option Nat) (st : CrawlState) : Bool :=
  match maxPages with
  | none => false
  | some m => m ≠ 0 && st.pages.length ≥ m

/-- The while-loop of `SiteAuditor.crawl_all`, on fuel: stop when the
frontier is empty or the page ceiling is reached; otherwise run one
iteration. -/
def crawl_all (env : List Char → FetchResult) (uj : List Char → List Char → List Char)
    (maxPages : Option Nat) : Nat → CrawlState → CrawlState
  | 0, st => st
  | fuel + 1, st =>
    if st.queue.isEmpty then st
    else if ceilingReached maxPages st then st
    else crawl_all env uj maxPages fuel (crawlStep env uj st)

def BASE_URL : List Char := "https://docs.valence.desire2learn.com/".toList

/-- The crawl's initial state: normalized seed marked visited and
enqueued. -/
def initState : CrawlState :=
  { visited := [normalize_url BASE_URL], queue := [normalize_url BASE_URL],
    pages := [], failed := [], skipped := [], urlMap := [], routeCount := 0,
    categories := [], discardedLowContent := 0, discardedRoutes := 0,
    enqueueLog := [normalize_url BASE_URL] }

/-- The fetch outcomes `crawl_page` records as failures: a transport
error, or a status other than 200. -/
def fetchFails : FetchResult → Bool
  | .exn _ => true
  | .ok status _ _ _ _ => status ≠ 200

/-- The crawl invariant: the enqueue log is exactly the visited list (a
URL is marked visited at the moment it is enqueued, and only then), the
visited list has no duplicates, every visited URL is accounted for by a
page, a failure, a skip, a discarded low-content page or a still-queued
URL, the category log has one entry per produced page (committed or
discarded), and the route total counts the routes of committed and
discarded pages. -/
def stateInv (st : CrawlState) : Prop :=
  st.enqueueLog = st.visited ∧
  st.visited.Nodup ∧
  st.visited.length =
    st.pages.length + st.failed.length + st.skipped.length + st.discardedLowContent +
      st.queue.length ∧
  st.categories.length = st.pages.length + st.discardedLowContent ∧
  st.routeCount = (st.pages.map PageData.routesFound).sum + st.discardedRoutes

/- ### Coverage comparison (compare_with_app) -/

inductive CoverageStatus where
  | excellent
  | good
  | incomplete
deriving DecidableEq

/-- `coverage_pct` of `compare_with_app`, with Python's real division
modelled exactly over the rationals. -/
def coverage_pct (expectedPages actualPages : Nat) : ℚ :=
  if 0 < expectedPages then (actualPages : ℚ) / (expectedPages : ℚ) * 100 else 0

/-- The status banding of `compare_with_app`. -/
def coverage_status (expectedPages actualPages : Nat) : CoverageStatus :=
  if 95 ≤ coverage_pct expectedPages actualPages then .excellent
  else if 80 ≤ coverage_pct expectedPages actualPages then .good
  else .incomplete

/- ### Concrete fetch environments and resolver used in concrete runs -/

/-- urljoin specialised to absolute hrefs: resolution returns the href. -/
def ujId : List Char → List Char → List Char := fun _ href => href

/-- Every fetch times out. -/
def envTimeout : List Char → FetchResult := fun _ => .exn "Timeout".toList

/-- Every page is a 200 HTML page with 101 characters of content and two
in-scope absolute links. -/
def envTwoLinks : List Char → FetchResult := fun _ =>
  .ok 200 "text/html".toList (some "T".toList) (some (List.replicate 101 'a'))
    ["https://docs.valence.desire2learn.com/a".toList,
     "https://docs.valence.desire2learn.com/b".toList]

/-- Every page is a 200 HTML page with only 50 characters of content and
no links. -/
def envShortPage : List Char → FetchResult := fun _ =>
  .ok 200 "text/html".toList (some "T".toList) (some (List.replicate 50 'a')) []

/-- Every page is a 200 HTML page whose 14-character content documents
one API route, with no links. -/
def envShortRoute : List Char → FetchResult := fun _ =>
  .ok 200 "text/html".toList (some "T".toList) (some "GET /d2l/api/x".toList) []

/-- Every fetch returns HTTP 201 with an HTML body. -/
def env201 : List Char → FetchResult := fun _ =>
  .ok 201 "text/html".toList (some "T".toList) (some (List.replicate 101 'a')) []

/- ### Helper lemmas about the normalizer -/

theorem head?_dropWhile_false (p : α → Bool) :
    ∀ (l : List α) (a : α), (l.dropWhile p).head? = some a → p a = false := by
  intro l
  induction l with
  | nil => intro a h; simp at h
  | cons x xs ih =>
    intro a h
    by_cases hx : p x
    · rw [List.dropWhile_cons_of_pos hx] at h
      exact ih a h
    · rw [List.dropWhile_cons_of_neg hx] at h
      simp at h
      subst h
      exact Bool.eq_false_iff.mpr hx

theorem rstripSlash_getLast? (u : List Char) : (rstripSlash u).getLast? ≠ some '/' := by
  unfold rstripSlash
  rw [List.getLast?_reverse]
  intro h
  have := head?_dropWhile_false (· == '/') u.reverse '/' h
  simp at this

theorem rstripSlash_eq_self {u : List Char} (h : u.getLast? ≠ some '/') :
    rstripSlash u = u := by
  unfold rstripSlash
  rw [List.getLast?_eq_head?_reverse] at h
  cases hr : u.reverse with
  | nil =>
    have : u = [] := by simpa using congrArg List.reverse hr
    simp [hr, this]
  | cons a t =>
    rw [hr] at h
    simp at h
    have ha : (a == '/') = false := by
      simp only [beq_eq_false_iff_ne]
      exact h
    rw [List.dropWhile_cons_of_neg (by simp [ha])]
    rw [← hr, List.reverse_reverse]

theorem rstripSlash_append_slash (u : List Char) :
    rstripSlash (u ++ ['/']) = rstripSlash u := by
  unfold rstripSlash
  rw [List.reverse_append]
  simp [List.dropWhile_cons_of_pos]

theorem mem_rstripSlash {c : Char} {u : List Char} (h : c ∈ rstripSlash u) : c ∈ u := by
  unfold rstripSlash at h
  rw [List.mem_reverse] at h
  have hs : u.reverse.dropWhile (· == '/') <:+ u.reverse := List.dropWhile_suffix _
  have := hs.sublist.subset h
  simpa using this

theorem mem_stripIndexHtml {c : Char} {u : List Char} (h : c ∈ stripIndexHtml u) : c ∈ u := by
  unfold stripIndexHtml at h
  split at h
  · exact (List.take_sublist _ _).subset h
  · exact h

theorem not_hash_mem_dropFragment (u : List Char) : '#' ∉ dropFragment u := by
  intro h
  have := List.mem_takeWhile_imp h
  simp at this

theorem dropFragment_eq_self {u : List Char} (h : '#' ∉ u) : dropFragment u = u := by
  induction u with
  | nil => rfl
  | cons x xs ih =>
    have hx : x ≠ '#' := fun he => h (he ▸ List.mem_cons_self x xs)
    unfold dropFragment
    rw [List.takeWhile_cons_of_pos (by simpa using hx)]
    have := ih (fun hm => h (List.mem_cons_of_mem x hm))
    unfold dropFragment at this
    rw [this]

theorem stripIndexHtml_eq_self {u : List Char} (h : INDEX_SUFFIX.isSuffixOf u = false) :
    stripIndexHtml u = u := by
  unfold stripIndexHtml
  rw [h]
  simp

theorem not_hash_mem_normalize (u : List Char) : '#' ∉ normalize_url u := by
  intro h
  exact not_hash_mem_dropFragment u (mem_stripIndexHtml (mem_rstripSlash h))

theorem normalize_getLast? (u : List Char) : (normalize_url u).getLast? ≠ some '/' :=
  rstripSlash_getLast? _

/-- C6 (amended) core argument: on inputs whose normal form does not end
in the index suffix, a second normalization is the identity. -/
theorem normalize_idem_of_not_index {u : List Char}
    (h : INDEX_SUFFIX.isSuffixOf (normalize_url u) = false) :
    normalize_url (normalize_url u) = normalize_url u := by
  show rstripSlash (stripIndexHtml (dropFragment (normalize_url u))) = normalize_url u
  rw [dropFragment_eq_self (not_hash_mem_normalize u), stripIndexHtml_eq_self h,
    rstripSlash_eq_self (normalize_getLast? u)]

theorem dropFragment_append_hash (f : List Char) :
    ∀ u : List Char, '#' ∉ u → dropFragment (u ++ '#' :: f) = u := by
  intro u
  induction u with
  | nil =>
    intro _
    simp [dropFragment]
  | cons x xs ih =>
    intro h
    have hx : x ≠ '#' := fun he => h (he ▸ List.mem_cons_self x xs)
    have hxs : '#' ∉ xs := fun hm => h (List.mem_cons_of_mem x hm)
    show List.takeWhile _ (x :: (xs ++ '#' :: f)) = x :: xs
    rw [List.takeWhile_cons_of_pos (by simpa using hx)]
    have := ih hxs
    unfold dropFragment at this
    rw [this]

theorem index_not_suffix_slash (u : List Char) :
    INDEX_SUFFIX.isSuffixOf (u ++ ['/']) = false := by
  cases hb : INDEX_SUFFIX.isSuffixOf (u ++ ['/']) with
  | false => rfl
  | true =>
    exfalso
    have hs : INDEX_SUFFIX <:+ u ++ ['/'] := List.isSuffixOf_iff_suffix.mp hb
    obtain ⟨t, ht⟩ := hs
    have h1 : (t ++ INDEX_SUFFIX).getLast? = some 'l' := by
      rw [show INDEX_SUFFIX = "/index.htm".toList ++ ['l'] from rfl, ← List.append_assoc]
      exact List.getLast?_concat _
    rw [ht, List.getLast?_concat] at h1
    exact absurd h1 (by decide)

theorem stripIndexHtml_append (u : List Char) :
    stripIndexHtml (u ++ INDEX_SUFFIX) = u ++ ['/'] := by
  unfold stripIndexHtml
  have hs : INDEX_SUFFIX.isSuffixOf (u ++ INDEX_SUFFIX) = true :=
    List.isSuffixOf_iff_suffix.mpr (List.suffix_append u INDEX_SUFFIX)
  rw [hs]
  simp only [if_true]
  have hlen : (u ++ INDEX_SUFFIX).length - 10 = u.length + 1 := by
    rw [List.length_append]
    rw [show INDEX_SUFFIX.length = 11 from rfl]
    omega
  rw [hlen, List.take_append_eq_append_take,
    List.take_of_length_le (by omega : u.length ≤ u.length + 1)]
  congr 1
  rw [show u.length + 1 - u.length = 1 from by omega]
  rfl

/-- Fragment insensitivity, needing no restriction on the base URL other
than that it carries no fragment itself: `urldefrag` truncates at the
first `#` before the suffix and slash handling ever run. -/
theorem normalize_append_fragment {u : List Char} (h1 : '#' ∉ u) (f : List Char) :
    normalize_url (u ++ '#' :: f) = normalize_url u := by
  show rstripSlash (stripIndexHtml (dropFragment (u ++ '#' :: f))) =
    rstripSlash (stripIndexHtml (dropFragment u))
  rw [dropFragment_append_hash f u h1, dropFragment_eq_self h1]

theorem normalize_append_classes {u : List Char} (h1 : '#' ∉ u)
    (h2 : INDEX_SUFFIX.isSuffixOf u = false) :
    normalize_url (u ++ INDEX_SUFFIX) = normalize_url u ∧
    normalize_url (u ++ ['/']) = normalize_url u := by
  have hbase : normalize_url u = rstripSlash u := by
    unfold normalize_url
    rw [dropFragment_eq_self h1, stripIndexHtml_eq_self h2]
  refine ⟨?_, ?_⟩
  · show rstripSlash (stripIndexHtml (dropFragment (u ++ INDEX_SUFFIX))) = normalize_url u
    have hnh : '#' ∉ u ++ INDEX_SUFFIX := by
      intro hm
      rcases List.mem_append.mp hm with hma | hmb
      · exact h1 hma
      · exact absurd hmb (by decide)
    rw [dropFragment_eq_self hnh, stripIndexHtml_append, rstripSlash_append_slash, hbase]
  · show rstripSlash (stripIndexHtml (dropFragment (u ++ ['/']))) = normalize_url u
    have hnh : '#' ∉ u ++ ['/'] := by
      intro hm
      rcases List.mem_append.mp hm with hma | hmb
      · exact h1 hma
      · exact absurd hmb (by decide)
    rw [dropFragment_eq_self hnh, stripIndexHtml_eq_self (index_not_suffix_slash u),
      rstripSlash_append_slash, hbase]

theorem rstripSlash_spec (v : List Char) :
    ∃ t, v = rstripSlash v ++ t ∧ ∀ c ∈ t, c = '/' := by
  have h0 := List.takeWhile_append_dropWhile (· == '/') v.reverse
  have h1 := congrArg List.reverse h0
  rw [List.reverse_append, List.reverse_reverse] at h1
  refine ⟨(v.reverse.takeWhile (· == '/')).reverse, ?_, ?_⟩
  · show v = (v.reverse.dropWhile (· == '/')).reverse ++ _
    exact h1.symm
  · intro c hc
    rw [List.mem_reverse] at hc
    have := List.mem_takeWhile_imp hc
    simpa using this

/- ### Route-extractor lemmas -/

theorem toNat_ofNat_bounded {n : Nat} (h1 : 97 ≤ n) (h2 : n ≤ 122) :
    (Char.ofNat n).toNat = n := by
  interval_cases n <;> decide

theorem upChar_lowChar (c : Char) : upChar (lowChar c) = upChar c := by
  unfold lowChar
  by_cases h : 65 ≤ c.toNat ∧ c.toNat ≤ 90
  · rw [if_pos h]
    have ht : (Char.ofNat (c.toNat + 32)).toNat = c.toNat + 32 :=
      toNat_ofNat_bounded (by omega) (by omega)
    unfold upChar
    rw [ht]
    rw [if_pos (by omega), if_neg (by omega)]
    rw [show c.toNat + 32 - 32 = c.toNat from by omega, Char.ofNat_toNat]
  · rw [if_neg h]

theorem matchLitCI_map_upChar :
    ∀ (pat s m r : List Char), matchLitCI pat s = some (m, r) →
      m.map upChar = pat.map upChar := by
  intro pat
  induction pat with
  | nil =>
    intro s m r h
    unfold matchLitCI at h
    injection h with h
    injection h with h1 h2
    rw [← h1]
  | cons p ps ih =>
    intro s m r h
    cases s with
    | nil => exact absurd h (by simp [matchLitCI])
    | cons c cs =>
      unfold matchLitCI at h
      by_cases hlow : lowChar p = lowChar c
      · rw [if_pos hlow] at h
        cases hm : matchLitCI ps cs with
        | none => rw [hm] at h; exact absurd h (by simp)
        | some mr =>
          rw [hm] at h
          injection h with h
          injection h with h1 h2
          rw [← h1]
          show upChar c :: List.map upChar mr.1 = upChar p :: List.map upChar ps
          have hup : upChar c = upChar p := by
            rw [← upChar_lowChar c, ← hlow, upChar_lowChar]
          rw [hup, ih cs mr.1 mr.2 (by rw [hm])]
      · rw [if_neg hlow] at h
        exact absurd h (by simp)

theorem firstAlt_mem :
    ∀ (pats : List (List Char)) (s m r : List Char),
      firstAlt pats s = some (m, r) → ∃ pat ∈ pats, matchLitCI pat s = some (m, r) := by
  intro pats
  induction pats with
  | nil =>
    intro s m r h
    exact absurd h (by simp [firstAlt])
  | cons p ps ih =>
    intro s m r h
    unfold firstAlt at h
    cases hm : matchLitCI p s with
    | none =>
      rw [hm] at h
      obtain ⟨pat, hpat, hmatch⟩ := ih s m r h
      exact ⟨pat, List.mem_cons_of_mem p hpat, hmatch⟩
    | some mr =>
      rw [hm] at h
      injection h with h
      exact ⟨p, List.mem_cons_self p ps, by rw [hm, h]⟩

theorem matchRouteAt_method {s : List Char} {mp : List Char × List Char} {r : List Char}
    (h : matchRouteAt s = some (mp, r)) :
    ∃ r1, firstAlt methodList s = some (mp.1, r1) := by
  unfold matchRouteAt at h
  split at h
  next => exact absurd h (by simp)
  next m r1 heq =>
    split at h
    next => exact absurd h (by simp)
    next =>
      split at h
      next => exact absurd h (by simp)
      next pfx r3 heq2 =>
        split at h
        next => exact absurd h (by simp)
        next =>
          injection h with h
          have h1 : mp = (m, pfx ++ r3.takeWhile isPathChar) := by
            have := congrArg Prod.fst h
            simpa using this.symm
          rw [h1]
          exact ⟨r1, heq⟩

theorem scanRoutes_method :
    ∀ (fuel : Nat) (s : List Char) (mp : List Char × List Char),
      mp ∈ scanRoutes fuel s → ∃ s' r, matchRouteAt s' = some (mp, r) := by
  intro fuel
  induction fuel with
  | zero =>
    intro s mp h
    exact absurd h (by simp [scanRoutes])
  | succ n ih =>
    intro s mp h
    cases s with
    | nil => exact absurd h (by simp [scanRoutes])
    | cons c rest =>
      unfold scanRoutes at h
      cases hm : matchRouteAt (c :: rest) with
      | none =>
        rw [hm] at h
        exact ih rest mp h
      | some mr =>
        rw [hm] at h
        rcases List.mem_cons.mp h with heq | hmem
        · exact ⟨c :: rest, mr.2, by rw [hm, heq]⟩
        · exact ih mr.2 mp hmem

theorem extract_method_upper {s : List Char} {mp : List Char × List Char}
    (h : mp ∈ extract_api_routes s) : mp.1 ∈ methodList := by
  unfold extract_api_routes at h
  obtain ⟨raw, hraw, hmp⟩ := List.mem_map.mp h
  obtain ⟨s', r, hmatch⟩ := scanRoutes_method s.length s raw hraw
  obtain ⟨r1, hfa⟩ := matchRouteAt_method hmatch
  obtain ⟨pat, hpat, hlit⟩ := firstAlt_mem methodList s' raw.1 r1 hfa
  have hmap := matchLitCI_map_upChar pat s' raw.1 r1 hlit
  have hfix : ∀ p ∈ methodList, List.map upChar p = p := by decide
  rw [← hmp]
  show (raw.1.map upChar, raw.2).1 ∈ methodList
  simpa [hmap, hfix pat hpat] using hpat

/- ### Crawl-loop lemmas -/

theorem processLinks_st (uj : List Char → List Char → List Char) (url : List Char) :
    ∀ (hs : List (List Char)) (st : CrawlState),
      ∃ m, (processLinks uj url hs st).1 = { st with urlMap := m } := by
  intro hs
  induction hs with
  | nil =>
    intro st
    exact ⟨st.urlMap, rfl⟩
  | cons href rest ih =>
    intro st
    unfold processLinks
    by_cases hskip : ("#".toList.isPrefixOf href || "mailto:".toList.isPrefixOf href) = true
    · rw [if_pos hskip]
      exact ih st
    · rw [if_neg hskip]
      obtain ⟨m, hm⟩ :=
        ih { st with urlMap := urlMapAppend st.urlMap (normalize_url (uj url href)) url }
      by_cases hkeep : (is_valid (normalize_url (uj url href)) &&
          !(st.visited.contains (normalize_url (uj url href)))) = true
      · rw [if_pos hkeep]
        exact ⟨m, hm⟩
      · rw [if_neg hkeep]
        exact ⟨m, hm⟩

theorem crawl_page_shape (env : List Char → FetchResult)
    (uj : List Char → List Char → List Char) (st : CrawlState) (url : List Char)
    (parent : Option (List Char)) :
    (∃ fr, crawl_page env uj st url parent =
        ⟨{ st with failed := st.failed ++ [fr] }, none, []⟩) ∨
    (∃ sr, crawl_page env uj st url parent =
        ⟨{ st with skipped := st.skipped ++ [sr] }, none, []⟩) ∨
    (∃ pd m links, crawl_page env uj st url parent =
        ⟨{ st with categories := st.categories ++ [pd.category],
                   routeCount := st.routeCount + pd.routesFound, urlMap := m },
         some pd, links⟩) := by
  unfold crawl_page
  cases henv : env url with
  | exn e =>
    exact Or.inl ⟨⟨url, e, parent⟩, rfl⟩
  | ok status ctype titl main hrefs =>
    by_cases hstat : status ≠ 200
    · refine Or.inl ⟨⟨url, Nat.toDigits 10 status, parent⟩, ?_⟩
      show (if status ≠ 200 then _ else _) = _
      rw [if_pos hstat]
    · by_cases hct : ¬(isSubstringOf "text/html".toList ctype = true)
      · refine Or.inr (Or.inl ⟨⟨url, "Not HTML".toList, some ctype⟩, ?_⟩)
        show (if status ≠ 200 then _ else _) = _
        rw [if_neg hstat, if_pos hct]
      · cases main with
        | none =>
          refine Or.inr (Or.inl ⟨⟨url, "No main content found".toList,
            some (titl.getD "Untitled".toList)⟩, ?_⟩)
          show (if status ≠ 200 then _ else _) = _
          rw [if_neg hstat, if_neg hct]
        | some content =>
          refine Or.inr (Or.inr ?_)
          obtain ⟨m, hm⟩ := processLinks_st uj url hrefs (pageStateUpdate st url content)
          refine ⟨mkPageData url titl content parent, m,
            (processLinks uj url hrefs (pageStateUpdate st url content)).2, ?_⟩
          show (if status ≠ 200 then _ else _) = _
          rw [if_neg hstat, if_neg hct]
          show PageResult.mk _ _ _ = PageResult.mk _ _ _
          congr 1

theorem expandLinks_spec : ∀ (ls : List (List Char)) (st : CrawlState),
    ∃ new, expandLinks ls st =
        { st with visited := st.visited ++ new, queue := st.queue ++ new,
                  enqueueLog := st.enqueueLog ++ new } ∧
      (st.visited.Nodup → (st.visited ++ new).Nodup) := by
  intro ls
  induction ls with
  | nil =>
    intro st
    exact ⟨[], by simp [expandLinks], fun h => by simpa using h⟩
  | cons l rest ih =>
    intro st
    unfold expandLinks
    by_cases hl : l ∈ st.visited
    · rw [if_pos hl]
      exact ih st
    · rw [if_neg hl]
      obtain ⟨new, he, hn⟩ :=
        ih { st with visited := st.visited ++ [l], queue := st.queue ++ [l],
                     enqueueLog := st.enqueueLog ++ [l] }
      refine ⟨l :: new, ?_, ?_⟩
      · rw [he]
        show CrawlState.mk _ _ _ _ _ _ _ _ _ _ _ = CrawlState.mk _ _ _ _ _ _ _ _ _ _ _
        simp
      · intro hnod
        have h1 : (st.visited ++ [l]).Nodup := by
          simp [List.nodup_append, hnod, hl]
        have := hn h1
        simpa using this

theorem crawlStep_inv (env : List Char → FetchResult) (uj : List Char → List Char → List Char)
    (st : CrawlState) (h : stateInv st) : stateInv (crawlStep env uj st) := by
  obtain ⟨hlog, hnodup, hcount, hcat, hroute⟩ := h
  cases hq : st.queue with
  | nil =>
    unfold crawlStep
    rw [hq]
    exact ⟨hlog, hnodup, hcount, hcat, hroute⟩
  | cons url rest =>
    unfold crawlStep
    rw [hq]
    rw [hq] at hcount
    show stateInv (expandLinks
      (crawl_page env uj { st with queue := rest } url (parentOf st url)).links
      (commitPage (crawl_page env uj { st with queue := rest } url (parentOf st url)).st
        (crawl_page env uj { st with queue := rest } url (parentOf st url)).page))
    rcases crawl_page_shape env uj { st with queue := rest } url (parentOf st url) with
      ⟨fr, hcp⟩ | ⟨sr, hcp⟩ | ⟨pd, m, links, hcp⟩
    · rw [hcp]
      refine ⟨hlog, hnodup, ?_, hcat, hroute⟩
      show st.visited.length = st.pages.length + (st.failed ++ [fr]).length +
        st.skipped.length + st.discardedLowContent + rest.length
      simp only [List.length_append, List.length_cons, List.length_nil] at hcount ⊢
      omega
    · rw [hcp]
      refine ⟨hlog, hnodup, ?_, hcat, hroute⟩
      show st.visited.length = st.pages.length + st.failed.length +
        (st.skipped ++ [sr]).length + st.discardedLowContent + rest.length
      simp only [List.length_append, List.length_cons, List.length_nil] at hcount ⊢
      omega
    · rw [hcp]
      show stateInv (expandLinks links
        (if pd.contentLength > 100 then
          { st with queue := rest, categories := st.categories ++ [pd.category],
                    routeCount := st.routeCount + pd.routesFound, urlMap := m,
                    pages := st.pages ++ [pd] }
         else
          { st with queue := rest, categories := st.categories ++ [pd.category],
                    routeCount := st.routeCount + pd.routesFound, urlMap := m,
                    discardedLowContent := st.discardedLowContent + 1,
                    discardedRoutes := st.discardedRoutes + pd.routesFound }))
      by_cases hbig : pd.contentLength > 100
      · rw [if_pos hbig]
        obtain ⟨new, hel, hn⟩ := expandLinks_spec links
          { st with queue := rest, categories := st.categories ++ [pd.category],
                    routeCount := st.routeCount + pd.routesFound, urlMap := m,
                    pages := st.pages ++ [pd] }
        rw [hel]
        refine ⟨?_, ?_, ?_, ?_, ?_⟩
        · show st.enqueueLog ++ new = st.visited ++ new
          rw [hlog]
        · exact hn hnodup
        · show (st.visited ++ new).length = (st.pages ++ [pd]).length + st.failed.length +
            st.skipped.length + st.discardedLowContent + (rest ++ new).length
          simp only [List.length_append, List.length_cons, List.length_nil] at hcount ⊢
          omega
        · show (st.categories ++ [pd.category]).length =
            (st.pages ++ [pd]).length + st.discardedLowContent
          simp only [List.length_append, List.length_cons, List.length_nil]
          omega
        · show st.routeCount + pd.routesFound =
            ((st.pages ++ [pd]).map PageData.routesFound).sum + st.discardedRoutes
          rw [List.map_append, List.sum_append]
          simp only [List.map_cons, List.map_nil, List.sum_cons, List.sum_nil]
          omega
      · rw [if_neg hbig]
        obtain ⟨new, hel, hn⟩ := expandLinks_spec links
          { st with queue := rest, categories := st.categories ++ [pd.category],
                    routeCount := st.routeCount + pd.routesFound, urlMap := m,
                    discardedLowContent := st.discardedLowContent + 1,
                    discardedRoutes := st.discardedRoutes + pd.routesFound }
        rw [hel]
        refine ⟨?_, ?_, ?_, ?_, ?_⟩
        · show st.enqueueLog ++ new = st.visited ++ new
          rw [hlog]
        · exact hn hnodup
        · show (st.visited ++ new).length = st.pages.length + st.failed.length +
            st.skipped.length + (st.discardedLowContent + 1) + (rest ++ new).length
          simp only [List.length_append, List.length_cons, List.length_nil] at hcount ⊢
          omega
        · show (st.categories ++ [pd.category]).length =
            st.pages.length + (st.discardedLowContent + 1)
          simp only [List.length_append, List.length_cons, List.length_nil]
          omega
        · show st.routeCount + pd.routesFound =
            (st.pages.map PageData.routesFound).sum + (st.discardedRoutes + pd.routesFound)
          omega

theorem stateInv_init : stateInv initState :=
  ⟨rfl, List.nodup_singleton _, rfl, rfl, rfl⟩

theorem crawl_all_inv (env : List Char → FetchResult)
    (uj : List Char → List Char → List Char) (maxPages : Option Nat) :
    ∀ (fuel : Nat) (st : CrawlState),
      stateInv st → stateInv (crawl_all env uj maxPages fuel st) := by
  intro fuel
  induction fuel with
  | zero =>
    intro st h
    exact h
  | succ n ih =>
    intro st h
    unfold crawl_all
    by_cases h1 : st.queue.isEmpty = true
    · rw [if_pos h1]
      exact h
    · rw [if_neg h1]
      by_cases h2 : ceilingReached maxPages st = true
      · rw [if_pos h2]
        exact h
      · rw [if_neg h2]
        exact ih _ (crawlStep_inv env uj st h)

/- ### Remaining support lemmas -/

theorem rstripSlash_prefix_spec (v : List Char) : rstripSlash v <+: v := by
  obtain ⟨t, hv, -⟩ := rstripSlash_spec v
  exact ⟨t, hv.symm⟩

theorem rstripSlash_drop (v : List Char) :
    v.drop (rstripSlash v).length =
      List.replicate (v.length - (rstripSlash v).length) '/' := by
  obtain ⟨t, hv, ht⟩ := rstripSlash_spec v
  have hlen : t.length = v.length - (rstripSlash v).length := by
    have := congrArg List.length hv
    simp only [List.length_append] at this
    omega
  calc v.drop (rstripSlash v).length
      = (rstripSlash v ++ t).drop (rstripSlash v).length := by rw [← hv]
    _ = t := List.drop_left _ _
    _ = List.replicate (v.length - (rstripSlash v).length) '/' := by
        rw [List.eq_replicate_iff]
        exact ⟨hlen, ht⟩

theorem coverage_status_iff (e o : Nat) :
    (coverage_status e o = .excellent ↔ 95 ≤ coverage_pct e o) ∧
    (coverage_status e o = .good ↔ 80 ≤ coverage_pct e o ∧ coverage_pct e o < 95) ∧
    (coverage_status e o = .incomplete ↔ coverage_pct e o < 80) := by
  unfold coverage_status
  by_cases h95 : 95 ≤ coverage_pct e o
  · rw [if_pos h95]
    exact ⟨⟨fun _ => h95, fun _ => rfl⟩,
           ⟨fun hc => by simp at hc, fun hc => absurd h95 (by linarith [hc.2])⟩,
           ⟨fun hc => by simp at hc, fun hc => absurd h95 (by linarith)⟩⟩
  · by_cases h80 : 80 ≤ coverage_pct e o
    · rw [if_neg h95, if_pos h80]
      exact ⟨⟨fun hc => by simp at hc, fun hc => absurd hc h95⟩,
             ⟨fun _ => ⟨h80, not_le.mp h95⟩, fun _ => rfl⟩,
             ⟨fun hc => by simp at hc, fun hc => absurd h80 (by linarith)⟩⟩
    · rw [if_neg h95, if_neg h80]
      exact ⟨⟨fun hc => by simp at hc, fun hc => absurd hc h95⟩,
             ⟨fun hc => by simp at hc, fun hc => absurd hc.1 h80⟩,
             ⟨fun _ => not_le.mp h80, fun _ => rfl⟩⟩

theorem crawl_page_exn {env : List Char → FetchResult} {url : List Char} {e : List Char}
    (uj : List Char → List Char → List Char) (st : CrawlState) (parent : Option (List Char))
    (henv : env url = .exn e) :
    crawl_page env uj st url parent =
      ⟨{ st with failed := st.failed ++ [⟨url, e, parent⟩] }, none, []⟩ := by
  unfold crawl_page
  simp only [henv]

theorem crawl_page_status_fail {env : List Char → FetchResult} {url : List Char}
    {status : Nat} {ctype : List Char} {titl : Option (List Char)}
    {main : Option (List Char)} {hrefs : List (List Char)}
    (uj : List Char → List Char → List Char) (st : CrawlState) (parent : Option (List Char))
    (henv : env url = .ok status ctype titl main hrefs) (hstat : status ≠ 200) :
    crawl_page env uj st url parent =
      ⟨{ st with failed := st.failed ++ [⟨url, Nat.toDigits 10 status, parent⟩] },
       none, []⟩ := by
  unfold crawl_page
  simp only [henv]
  rw [if_pos hstat]

theorem crawl_page_200_failed {env : List Char → FetchResult} {url : List Char}
    {status : Nat} {ctype : List Char} {titl : Option (List Char)}
    {main : Option (List Char)} {hrefs : List (List Char)}
    (uj : List Char → List Char → List Char) (st : CrawlState) (parent : Option (List Char))
    (henv : env url = .ok status ctype titl main hrefs) (hstat : ¬(status ≠ 200)) :
    (crawl_page env uj st url parent).st.failed = st.failed := by
  unfold crawl_page
  simp only [henv]
  rw [if_neg hstat]
  by_cases hct : ¬(isSubstringOf "text/html".toList ctype = true)
  · rw [if_pos hct]
  · rw [if_neg hct]
    cases main with
    | none => rfl
    | some content =>
      obtain ⟨m, hm⟩ := processLinks_st uj url hrefs (pageStateUpdate st url content)
      show (processLinks uj url hrefs (pageStateUpdate st url content)).1.failed = st.failed
      rw [hm]
      rfl

theorem count_decEq (x : List Char) :
    ∀ l : List (List Char),
      @List.count (List Char) instBEqOfDecidableEq x l = l.count x := by
  intro l
  induction l with
  | nil => rfl
  | cons a as ih =>
    rw [@List.count_cons (List Char) instBEqOfDecidableEq x a as, List.count_cons, ih]
    by_cases hax : a = x
    · subst hax
      simp
    · simp [hax]

/-- The sum of the category defaultdict's values is the length of the
increment log. -/
theorem sum_count_dedup_categories (l : List (List Char)) :
    (l.dedup.map fun c => l.count c).sum = l.length := by
  have h := List.sum_map_count_dedup_eq_length l
  simp only [count_decEq] at h
  exact h

/- ### Claim theorems -/

/-- C1: over every fetch environment, urljoin resolver, page ceiling and
number of loop iterations, the log of URLs ever appended to the frontier
has no duplicates — a normalized URL enters the frontier at most once per
crawl — and that log is exactly the visited list: a URL is added to the
visited set at the very moment it is enqueued (membership is checked
before enqueueing, never at dequeue time). -/
theorem enqueue_once (env : List Char → FetchResult)
    (uj : List Char → List Char → List Char) (maxPages : Option Nat) (fuel : Nat) :
    (crawl_all env uj maxPages fuel initState).enqueueLog.Nodup ∧
    (crawl_all env uj maxPages fuel initState).enqueueLog =
      (crawl_all env uj maxPages fuel initState).visited := by
  obtain ⟨hlog, hnodup, -, -, -⟩ := crawl_all_inv env uj maxPages fuel initState stateInv_init
  exact ⟨hlog ▸ hnodup, hlog⟩

/-- C2 (amended): in every reachable crawl state the visited count equals
pages + failures + skips + discarded low-content pages + the URLs still
queued; consequently the reconciliation `visited = pages + failures +
skips + discarded` holds exactly when the crawl ends with an empty
frontier.  When the page ceiling stops the crawl early, visited exceeds
that sum by the size of the remaining frontier. -/
theorem reconciliation (env : List Char → FetchResult)
    (uj : List Char → List Char → List Char) (maxPages : Option Nat) (fuel : Nat) :
    (crawl_all env uj maxPages fuel initState).visited.length =
      (crawl_all env uj maxPages fuel initState).pages.length +
      (crawl_all env uj maxPages fuel initState).failed.length +
      (crawl_all env uj maxPages fuel initState).skipped.length +
      (crawl_all env uj maxPages fuel initState).discardedLowContent +
      (crawl_all env uj maxPages fuel initState).queue.length ∧
    ((crawl_all env uj maxPages fuel initState).queue = [] →
      (crawl_all env uj maxPages fuel initState).visited.length =
        (crawl_all env uj maxPages fuel initState).pages.length +
        (crawl_all env uj maxPages fuel initState).failed.length +
        (crawl_all env uj maxPages fuel initState).skipped.length +
        (crawl_all env uj maxPages fuel initState).discardedLowContent) := by
  obtain ⟨-, -, hcount, -, -⟩ := crawl_all_inv env uj maxPages fuel initState stateInv_init
  refine ⟨hcount, fun hq => ?_⟩
  rw [hq] at hcount
  simpa using hcount

/-- C2 witness: a crawl whose only fetch times out completes with an
empty frontier, and its counts reconcile. -/
theorem reconciliation_witness :
    (crawl_all envTimeout ujId none 2 initState).visited.length =
      (crawl_all envTimeout ujId none 2 initState).pages.length +
      (crawl_all envTimeout ujId none 2 initState).failed.length +
      (crawl_all envTimeout ujId none 2 initState).skipped.length +
      (crawl_all envTimeout ujId none 2 initState).discardedLowContent :=
  (reconciliation envTimeout ujId none 2).2 (by decide)

/-- C2 counterexample: with a page ceiling of 1, the seed page commits
and its two links are enqueued and marked visited, then the ceiling stops
the crawl: 3 visited URLs against 1 page, 0 failures, 0 skips and 0
discarded pages — the reconciliation of the claim fails for a crawl that
ended because the page ceiling was reached. -/
theorem reconciliation_cex :
    ceilingReached (some 1) (crawl_all envTwoLinks ujId (some 1) 5 initState) = true ∧
    (crawl_all envTwoLinks ujId (some 1) 5 initState).visited.length ≠
      (crawl_all envTwoLinks ujId (some 1) 5 initState).pages.length +
      (crawl_all envTwoLinks ujId (some 1) 5 initState).failed.length +
      (crawl_all envTwoLinks ujId (some 1) 5 initState).skipped.length +
      (crawl_all envTwoLinks ujId (some 1) 5 initState).discardedLowContent :=
  ⟨by decide, by decide⟩

/-- C3: the coverage percentage is observed/expected·100 (0 when the
expected count is 0, with no division error), and the banding statuses
hold exactly on the claimed ranges; the spec's four concrete examples
evaluate as stated. -/
theorem coverage_comparison :
    (∀ e o : Nat,
      (e = 0 → coverage_pct e o = 0) ∧
      (0 < e → coverage_pct e o = (o : ℚ) / (e : ℚ) * 100) ∧
      (coverage_status e o = .excellent ↔ 95 ≤ coverage_pct e o) ∧
      (coverage_status e o = .good ↔
        80 ≤ coverage_pct e o ∧ coverage_pct e o < 95) ∧
      (coverage_status e o = .incomplete ↔ coverage_pct e o < 80)) ∧
    coverage_pct 100 96 = 96 ∧ coverage_status 100 96 = .excellent ∧
    coverage_pct 100 82 = 82 ∧ coverage_status 100 82 = .good ∧
    coverage_pct 100 50 = 50 ∧ coverage_status 100 50 = .incomplete ∧
    coverage_pct 0 5 = 0 ∧ coverage_status 0 5 = .incomplete := by
  refine ⟨fun e o => ?_, by norm_num [coverage_pct],
    by norm_num [coverage_status, coverage_pct], by norm_num [coverage_pct],
    by norm_num [coverage_status, coverage_pct], by norm_num [coverage_pct],
    by norm_num [coverage_status, coverage_pct], by norm_num [coverage_pct],
    by norm_num [coverage_status, coverage_pct]⟩
  obtain ⟨h1, h2, h3⟩ := coverage_status_iff e o
  refine ⟨fun he => ?_, fun he => ?_, h1, h2, h3⟩
  · unfold coverage_pct
    rw [if_neg (by omega)]
  · unfold coverage_pct
    rw [if_pos he]

/-- C3 witness: the percentage clauses instantiated at the expected-zero
and the expected-100 baselines. -/
theorem coverage_comparison_witness :
    coverage_pct 0 5 = 0 ∧
    coverage_pct 100 96 = (96 : ℚ) / (100 : ℚ) * 100 ∧
    (coverage_status 100 96 = .excellent ↔ 95 ≤ coverage_pct 100 96) :=
  ⟨(coverage_comparison.1 0 5).1 rfl,
   (coverage_comparison.1 100 96).2.1 (by norm_num),
   (coverage_comparison.1 100 96).2.2.1⟩

/-- C4: on the claim's text the extractor returns exactly the two claimed
(method, path) pairs, in order, with the template placeholder preserved
verbatim and the lower-case `post` normalized to `POST`; a route
documented twice is returned twice; and every extracted method token is
one of the five upper-case method spellings. -/
theorem route_extraction :
    extract_api_routes
        "GET /d2l/api/lp/1.0/users/\x7buserId\x7d ... post /d2l/api/le/1.1/enrollments".toList =
      [("GET".toList, "/d2l/api/lp/1.0/users/\x7buserId\x7d".toList),
       ("POST".toList, "/d2l/api/le/1.1/enrollments".toList)] ∧
    extract_api_routes "GET /d2l/api/a GET /d2l/api/a".toList =
      [("GET".toList, "/d2l/api/a".toList), ("GET".toList, "/d2l/api/a".toList)] ∧
    (∀ (s : List Char) (mp : List Char × List Char),
      mp ∈ extract_api_routes s → mp.1 ∈ methodList) :=
  ⟨by decide, by decide, fun _ _ h => extract_method_upper h⟩

/-- C4 witness: the upper-casing clause instantiated at the claim's text
and its second extracted pair. -/
theorem route_extraction_witness :
    ("POST".toList, "/d2l/api/le/1.1/enrollments".toList).1 ∈ methodList :=
  route_extraction.2.2
    "GET /d2l/api/lp/1.0/users/\x7buserId\x7d ... post /d2l/api/le/1.1/enrollments".toList
    ("POST".toList, "/d2l/api/le/1.1/enrollments".toList) (by decide)

/-- C5 (amended): URLs that differ only by a fragment normalize alike —
unconditionally, for every base URL without a fragment of its own,
`/index.html` pages included; and — provided the base URL does not itself
end in `/index.html` — URLs differing only by a trailing `/index.html`,
a trailing slash, or neither also normalize alike; the claim's concrete
equalities all hold. -/
theorem crawlurl_identity :
    (∀ (u f : List Char), '#' ∉ u →
      normalize_url (u ++ '#' :: f) = normalize_url u) ∧
    (∀ u : List Char, '#' ∉ u → INDEX_SUFFIX.isSuffixOf u = false →
      normalize_url (u ++ INDEX_SUFFIX) = normalize_url u ∧
      normalize_url (u ++ ['/']) = normalize_url u) ∧
    normalize_url "https://h/a/index.html".toList = normalize_url "https://h/a/".toList ∧
    normalize_url "https://h/a/".toList = normalize_url "https://h/a".toList ∧
    normalize_url "https://h/a#sec1".toList = normalize_url "https://h/a".toList :=
  ⟨fun _ f h1 => normalize_append_fragment h1 f,
   fun _ h1 h2 => normalize_append_classes h1 h2, by decide, by decide, by decide⟩

/-- C5 witness: the fragment clause instantiated at an `/index.html` page
(no suffix restriction applies to it), the trailing-identity clause at
`https://h/a`. -/
theorem crawlurl_identity_witness :
    normalize_url ("https://h/docs/index.html".toList ++ '#' :: "top".toList) =
      normalize_url "https://h/docs/index.html".toList ∧
    normalize_url ("https://h/a".toList ++ INDEX_SUFFIX) =
      normalize_url "https://h/a".toList ∧
    normalize_url ("https://h/a".toList ++ ['/']) = normalize_url "https://h/a".toList :=
  ⟨crawlurl_identity.1 "https://h/docs/index.html".toList "top".toList (by decide),
   (crawlurl_identity.2.1 "https://h/a".toList (by decide) (by decide)).1,
   (crawlurl_identity.2.1 "https://h/a".toList (by decide) (by decide)).2⟩

/-- C5 counterexample: `https://h/index.html/index.html` and
`https://h/index.html` differ only by a trailing `/index.html`, yet they
normalize differently (to `https://h/index.html` and `https://h`), so the
claim's unrestricted identity statement is false on the code. -/
theorem crawlurl_identity_cex :
    normalize_url ("https://h/index.html".toList ++ INDEX_SUFFIX) ≠
      normalize_url "https://h/index.html".toList := by decide

/-- C6 (amended): normalization is idempotent on every input whose
normal form does not itself end in `/index.html`; the slice `url[:-10]`
removes only 10 of the suffix's 11 characters, so a normal form ending in
`/index.html` (possible only for nested `.../index.html/index.html`
inputs) is reduced again by a second pass. -/
theorem normalize_idempotent (u : List Char)
    (h : INDEX_SUFFIX.isSuffixOf (normalize_url u) = false) :
    normalize_url (normalize_url u) = normalize_url u :=
  normalize_idem_of_not_index h

/-- C6 witness: idempotence at a URL that does exercise the
`/index.html` stripping. -/
theorem normalize_idempotent_witness :
    normalize_url (normalize_url "https://h/a/index.html".toList) =
      normalize_url "https://h/a/index.html".toList :=
  normalize_idempotent "https://h/a/index.html".toList (by decide)

/-- C6 counterexample: normalization is not idempotent on
`https://h/index.html/index.html`: one pass gives
`https://h/index.html`, a second pass gives `https://h`. -/
theorem normalize_idempotent_cex :
    normalize_url (normalize_url "https://h/index.html/index.html".toList) ≠
      normalize_url "https://h/index.html/index.html".toList := by decide

/-- C7 (amended): after fragment and `/index.html` removal, `rstrip`
removes every trailing slash, not exactly one: the normal form is a
prefix of the intermediate string, the removed characters are all `/`,
and the result never ends in `/`; in particular `https://h/a//`
normalizes to `https://h/a`, not to a string ending in one slash. -/
theorem normalize_trailing_slashes :
    (∀ u : List Char,
      normalize_url u <+: stripIndexHtml (dropFragment u) ∧
      (stripIndexHtml (dropFragment u)).drop (normalize_url u).length =
        List.replicate
          ((stripIndexHtml (dropFragment u)).length - (normalize_url u).length) '/' ∧
      (normalize_url u).getLast? ≠ some '/') ∧
    normalize_url "https://h/a//".toList = "https://h/a".toList :=
  ⟨fun u => ⟨rstripSlash_prefix_spec _, rstripSlash_drop _, rstripSlash_getLast? _⟩, by decide⟩

/-- C7 counterexample: a URL ending in two slashes normalizes to one with
no trailing slash at all, not to one still ending in a single slash. -/
theorem normalize_trailing_slashes_cex :
    normalize_url "https://h/a//".toList ≠ "https://h/a/".toList := by decide

/-- C8 (amended): processing a URL records a failure exactly when the
fetch raises a transport error or returns a status other than 200 — not
"other than 2xx" — and every failure yields no page and no candidate
links. -/
theorem failure_classification (env : List Char → FetchResult)
    (uj : List Char → List Char → List Char) (st : CrawlState) (url : List Char)
    (parent : Option (List Char)) :
    ((crawl_page env uj st url parent).st.failed.length =
      st.failed.length + (if fetchFails (env url) then 1 else 0)) ∧
    (fetchFails (env url) = true →
      (crawl_page env uj st url parent).page = none ∧
      (crawl_page env uj st url parent).links = []) := by
  cases henv : env url with
  | exn e =>
    have hff : fetchFails (FetchResult.exn e) = true := rfl
    rw [hff, crawl_page_exn uj st parent henv]
    exact ⟨by simp, fun _ => ⟨rfl, rfl⟩⟩
  | ok status ctype titl main hrefs =>
    by_cases hstat : status ≠ 200
    · have hff : fetchFails (FetchResult.ok status ctype titl main hrefs) = true :=
        decide_eq_true hstat
      rw [hff, crawl_page_status_fail uj st parent henv hstat]
      exact ⟨by simp, fun _ => ⟨rfl, rfl⟩⟩
    · have hff : fetchFails (FetchResult.ok status ctype titl main hrefs) = false :=
        decide_eq_false hstat
      rw [hff]
      refine ⟨?_, fun hc => absurd hc (by simp)⟩
      rw [crawl_page_200_failed uj st parent henv hstat]
      simp

/-- C8 witness: the amended classification at a timing-out fetch. -/
theorem failure_classification_witness :
    ((crawl_page envTimeout ujId initState (normalize_url BASE_URL) none).st.failed.length =
      initState.failed.length +
        (if fetchFails (envTimeout (normalize_url BASE_URL)) then 1 else 0)) ∧
    (crawl_page envTimeout ujId initState (normalize_url BASE_URL) none).page = none ∧
    (crawl_page envTimeout ujId initState (normalize_url BASE_URL) none).links = [] :=
  ⟨(failure_classification envTimeout ujId initState (normalize_url BASE_URL) none).1,
   (failure_classification envTimeout ujId initState (normalize_url BASE_URL) none).2 rfl⟩

/-- C8 counterexample: a fetch returning HTTP 201 — a 2xx success — is
recorded as a failure and yields no page, contradicting the claim that a
2xx status is never recorded as a failure and proceeds to content
processing. -/
theorem failure_classification_cex :
    (crawl_page env201 ujId initState (normalize_url BASE_URL) none).st.failed.length = 1 ∧
    (crawl_page env201 ujId initState (normalize_url BASE_URL) none).page = none :=
  ⟨by decide, by decide⟩

/-- C9 (amended): a category count is incremented once per successfully
parsed page — including pages later discarded for low content — so the
sum of all category counts equals the committed pages plus the discarded
low-content pages, over every environment, resolver, ceiling and fuel. -/
theorem category_counts (env : List Char → FetchResult)
    (uj : List Char → List Char → List Char) (maxPages : Option Nat) (fuel : Nat) :
    ((crawl_all env uj maxPages fuel initState).categories.dedup.map
      fun c => (crawl_all env uj maxPages fuel initState).categories.count c).sum =
    (crawl_all env uj maxPages fuel initState).pages.length +
      (crawl_all env uj maxPages fuel initState).discardedLowContent := by
  obtain ⟨-, -, -, hcat, -⟩ := crawl_all_inv env uj maxPages fuel initState stateInv_init
  exact (sum_count_dedup_categories _).trans hcat

/-- C9 counterexample: a completed crawl of one 50-character page: the
page is classified (category counts sum to 1) yet no PageRecord is
committed, so the sum of category counts differs from the number of
committed PageRecords. -/
theorem category_counts_cex :
    (crawl_all envShortPage ujId none 2 initState).queue = [] ∧
    ((crawl_all envShortPage ujId none 2 initState).categories.dedup.map
      fun c => (crawl_all envShortPage ujId none 2 initState).categories.count c).sum = 1 ∧
    (crawl_all envShortPage ujId none 2 initState).pages.length = 0 :=
  ⟨by decide, by decide, by decide⟩

/-- C10: the accumulated route total equals the routes of the committed
pages plus the routes counted on pages discarded for low content, over
every environment, resolver, ceiling and fuel; and on a concrete crawl of
one short page documenting one route, the total (1) strictly exceeds the
committed pages' route sum (0). -/
theorem route_total :
    (∀ (env : List Char → FetchResult) (uj : List Char → List Char → List Char)
        (maxPages : Option Nat) (fuel : Nat),
      (crawl_all env uj maxPages fuel initState).routeCount =
        ((crawl_all env uj maxPages fuel initState).pages.map PageData.routesFound).sum +
          (crawl_all env uj maxPages fuel initState).discardedRoutes) ∧
    (crawl_all envShortRoute ujId none 2 initState).routeCount >
      ((crawl_all envShortRoute ujId none 2 initState).pages.map PageData.routesFound).sum := by
  constructor
  · intro env uj maxPages fuel
    obtain ⟨-, -, -, -, hroute⟩ := crawl_all_inv env uj maxPages fuel initState stateInv_init
    exact hroute
  · decide

end Scraper
